import Mathlib

/-!
# Verification of the Trinity laconic-OT core

A shallow embedding of the laconic-OT engine of the Trinity repository
(crates `plain_lot`, `halo2_lot`/`halo2_we_kzg`, `trinity`), together with
proofs settling the frozen claims about it.

Modelling conventions.

* Pairing groups in the discrete-log (exponent) model: the scalar field `F`
  stands for each of `G1`, `G2`, `GT` via exponents with respect to the fixed
  generators `g1`, `g2`, `e(g1, g2)`.  Group addition becomes field addition,
  scalar multiplication becomes field multiplication, and the bilinear pairing
  becomes field multiplication of exponents.  The SRS element `g1 · s^t` is the
  exponent `s^t`, `g2 · s` is the exponent `s`, and the generators themselves
  are the exponent `1`.
* The blake3 XOF keystream derived from a serialized target-group pad is an
  opaque function `ks : F → Fin 16 → ℕ` (one byte stream per pad value);
  messages are 16-byte strings `Fin 16 → ℕ` and XOR is `Nat.xor` per byte.
* Rust panics (failed `assert!`, out-of-bounds indexing) are modelled by
  `Option`: a function that can panic returns `none` exactly on the inputs
  where the Rust code panics.
* `ark_std::test_rng()` is a fixed-seed RNG; the single scalar that
  `LaconicOTRecv::new` draws from it for padding is therefore one fixed field
  element, modelled by the context field `padElem`.
* External library calls (`best_fft`, `lagrange_to_coeff`, the halo2 proving
  stack) are modelled by their documented contracts; `best_fft` additionally
  appears as an explicit function parameter `fft` where a claim is about code
  paths that must not reach it.
-/

namespace TrinityModel

/-- Choice bit, from `plain_lot/src/laconic_ot.rs` (`pub enum Choice { Zero, One }`);
the halo2 backend and the trinity dispatch layer carry isomorphic copies. -/
inductive Choice
  | Zero
  | One
deriving DecidableEq, Repr

/-- 16-byte message (`[u8; MSG_SIZE]` with `MSG_SIZE = 16`); bytes as `ℕ`. -/
def Bytes16 : Type := Fin 16 → ℕ

instance : DecidableEq Bytes16 := by
  unfold Bytes16
  infer_instance

section WithField

variable {F : Type} [Field F] [DecidableEq F]

/-- `bits.iter().map(|b| if One then one else zero)` from both backends'
`LaconicOTRecv::new` (plain_lot lines 118-127, halo2_lot lines 113-122). -/
def toElems (bits : List Choice) : List F :=
  bits.map (fun b => if b = Choice.One then (1 : F) else 0)

/-- `encrypt` from `plain_lot/src/laconic_ot.rs` lines 162-176: derive a blake3
XOF keystream from the serialized target-group pad and XOR it with the message.
The keystream (hash + XOF of the serialized pad) is the opaque `ks`. -/
def encrypt (ks : F → Fin 16 → ℕ) (pad : F) (msg : Bytes16) : Bytes16 :=
  fun t => Nat.xor (ks pad t) (msg t)

/-- `decrypt` from `plain_lot/src/laconic_ot.rs` lines 178-180: identical to
`encrypt` applied to the ciphertext. -/
def decrypt (ks : F → Fin 16 → ℕ) (pad : F) (ct : Bytes16) : Bytes16 :=
  encrypt ks pad ct

/-- `encrypt` from `halo2_lot/src/laconic_ot.rs` lines 172-188: same keystream
construction over the halo2 `Gt` type (serialization via `fq12_to_bytes`). -/
def halo2Encrypt (ks : F → Fin 16 → ℕ) (pad : F) (msg : Bytes16) : Bytes16 :=
  fun t => Nat.xor (ks pad t) (msg t)

/-- `decrypt` from `halo2_lot/src/laconic_ot.rs` lines 190-192. -/
def halo2Decrypt (ks : F → Fin 16 → ℕ) (pad : F) (ct : Bytes16) : Bytes16 :=
  halo2Encrypt ks pad ct

/-- OT message, `Msg` from `plain_lot/src/laconic_ot.rs` lines 57-60
(`h: [(E::G2Affine, [u8; MSG_SIZE]); 2]`); the halo2 `Msg` has the same shape.
`h0`/`h1` are the two `(group label, ciphertext)` branches. -/
structure OTMsg (F : Type) where
  h0 : F × Bytes16
  h1 : F × Bytes16
deriving DecidableEq

/-- Ambient parameters of one deployment shared by the embedded backends:
the domain size `n`, the domain generator `omega` (`ω`), the extended-domain
generator `zeta2` (`ω₂`, only used by the FK batch opening), the trusted-setup
secret `s` (the SRS is its power table in the exponent model), the fixed
scalar `padElem` that `ark_std::test_rng()` yields for the plain backend's
padding, and the keystream `ks` (blake3 XOF of a serialized pad). -/
structure Ctx (F : Type) where
  n : ℕ
  omega : F
  zeta2 : F
  s : F
  padElem : F
  ks : F → Fin 16 → ℕ

/-- `i`-th Lagrange basis polynomial for the nodes `ω^0, …, ω^(n-1)`,
evaluated at `x`. -/
def lagBasis (omega : F) (n i : ℕ) (x : F) : F :=
  ∏ j ∈ (Finset.range n).erase i, (x - omega ^ j) / (omega ^ i - omega ^ j)

/-- Evaluation at `x` of the degree-`< n` polynomial interpolating
`elems.getD i 0` at the node `ω^i` for `i < n`. -/
def interpEval (omega : F) (n : ℕ) (elems : List F) (x : F) : F :=
  ∑ i ∈ Finset.range n, elems.getD i 0 * lagBasis omega n i x

/-- Modelled from the spec: `plain_kzg_com` (crate `plain_lot`, file
`kzg_utils.rs`, absent from `src/`) — "converts the zero-padded bit vector
from evaluation (Lagrange) representation to a single group element via a
multi-scalar multiplication against the SRS's Lagrange-basis powers", i.e.
the KZG commitment `f(s)·g1` of the interpolating polynomial `f`; in the
exponent model the scalar `f(s)`. -/
def plain_kzg_com (C : Ctx F) (elems : List F) : F :=
  interpEval C.omega C.n elems C.s

/-- Modelled from the spec: `all_openings_single` (crate `plain_lot`, file
`kzg_fk_open.rs`, absent from `src/`) — "`n` source-group elements
`q_0..q_{n-1}`, the KZG witnesses for evaluation at each domain point `ω^i`",
so `q_i = [(f(s) - f(ω^i)) / (s - ω^i)]·g1`; in the exponent model the
quotient scalar. -/
def all_openings_single (C : Ctx F) (elems : List F) : List F :=
  (List.range C.n).map (fun i =>
    (interpEval C.omega C.n elems C.s - interpEval C.omega C.n elems (C.omega ^ i))
      / (C.s - C.omega ^ i))

/-- Receiver state, `LaconicOTRecv` from `plain_lot/src/laconic_ot.rs`
lines 103-109: the opening set `qs`, the commitment `com`, and the retained
(unpadded) choice bits. -/
structure RecvState (F : Type) where
  qs : List F
  com : F
  bits : List Choice

/-- The padded evaluation vector built by `LaconicOTRecv::new`
(`plain_lot/src/laconic_ot.rs` lines 118-133): the 0/1 image of the bits,
extended to length `n` by `resize_with(n, || ScalarField::rand(&mut test_rng()))`;
every closure call draws from a fresh fixed-seed `test_rng()`, so every padding
entry is the same fixed scalar `padElem`. -/
def paddedElems (C : Ctx F) (bits : List Choice) : List F :=
  toElems bits ++ List.replicate (C.n - bits.length) C.padElem

/-- Body of `LaconicOTRecv::new` (`plain_lot/src/laconic_ot.rs` lines 117-147)
after the length assertion: commitment, all openings, retained bits. -/
def recvNewD (C : Ctx F) (bits : List Choice) : RecvState F :=
  { qs := all_openings_single C (paddedElems C bits)
    com := plain_kzg_com C (paddedElems C bits)
    bits := bits }

/-- `LaconicOTRecv::new` with its `assert!(elems.len() <= ck.domain.size())`
(line 130) modelled as `Option`. -/
def recvNew (C : Ctx F) (bits : List Choice) : Option (RecvState F) :=
  if bits.length ≤ C.n then some (recvNewD C bits) else none

/-- `LaconicOTRecv::recv` (`plain_lot/src/laconic_ot.rs` lines 149-155):
`j = bits[i]`, `(h, c) = msg.h[j]`, `pad = pairing(qs[i], h)`, decrypt.
The two Rust index operations `self.bits[i]` and `self.qs[i]` panic out of
bounds: modelled by `Option.bind` on `List.get?`. -/
def recvOpt (C : Ctx F) (R : RecvState F) (i : ℕ) (msg : OTMsg F) : Option Bytes16 :=
  (R.bits.get? i).bind fun b =>
    (R.qs.get? i).map fun q =>
      let hc := if b = Choice.One then msg.h1 else msg.h0
      decrypt C.ks (q * hc.1) hc.2

/-- `LaconicOTSender::send` (`plain_lot/src/laconic_ot.rs` lines 187-222) in
the exponent model; the two freshly sampled scalars `r0`, `r1` are explicit
arguments.  `x = domain.element(i) = ω^i`, `g1 = ck.u[0]` (exponent `1`),
`g2 = ck.g2` (exponent `1`), `tau = ck.r = g2·s` (exponent `s`). -/
def send (C : Ctx F) (com : F) (i : ℕ) (r0 r1 : F) (m0 m1 : Bytes16) : OTMsg F :=
  let x := C.omega ^ i
  let g1 : F := 1
  let g2 : F := 1
  let tau : F := C.s
  let l0 := com * r0
  let l1 := (com - g1) * r1
  let msk0 := l0 * g2
  let msk1 := l1 * g2
  let cm := tau - g2 * x
  let h0 := cm * r0
  let h1 := cm * r1
  { h0 := (h0, encrypt C.ks msk0 m0)
    h1 := (h1, encrypt C.ks msk1 m1) }

/-- The padded evaluation vector of the halo2 backend's `LaconicOTRecv::new`
(`halo2_lot/src/laconic_ot.rs` lines 128-132): zero-padding to the domain
size (`elems_padded.resize(domain_size, Fr::zero())`, applied only when the
vector is shorter than the domain). -/
def halo2PaddedElems (n : ℕ) (bits : List Choice) : List F :=
  let elems : List F := toElems bits
  if elems.length < n then elems ++ List.replicate (n - elems.length) 0 else elems

/-- Modelled from the library/proof-transcript contract: the advice-column
commitment that `kzg_commitment_with_halo2_proof`
(`halo2_lot/src/circuits.rs` lines 116-170) reads back out of the proof
transcript is the unblinded Lagrange commitment of the zero-padded bitvector
(`params.commit_lagrange(..., Blind::default())`), as asserted by the
repository's own `test_circuit_commitment`; the `create_proof` internals are
external to `src/`.  In the exponent model this is `f₀(s)` for the
interpolation `f₀` of the zero-padded bits. -/
def halo2Commitment (C : Ctx F) (bits : List Choice) : F :=
  interpEval C.omega C.n (halo2PaddedElems C.n bits) C.s

/-! ## FK batch opening (`halo2_lot/src/poly_op.rs`) -/

/-- Modelled from the library contract of `halo2curves::fft::best_fft`: the
radix-2 discrete Fourier transform with the given root of unity,
`out[i] = ∑_j a[j] · root^(i·j)`.  Works uniformly for the scalar and (in the
exponent model) the group-element variant. -/
def dftL (root : F) (l : List F) : List F :=
  (List.range l.length).map (fun i =>
    ∑ j ∈ Finset.range l.length, l.getD j 0 * root ^ (i * j))

/-- `best_fft` as it appears at call sites: `(root, log₂ size, data)`; the
size argument is redundant for the mathematical transform. -/
def dftSpec (root : F) (_lg : ℕ) (l : List F) : List F := dftL root l

/-- The SRS power vector `params.g = [g1·s^t]_{t<n}` in the exponent model. -/
def srsPowers (s : F) (n : ℕ) : List F :=
  (List.range n).map (fun t => s ^ t)

/-- `precompute_y` (`halo2_lot/src/poly_op.rs` lines 121-161): build
`hat_s = [powers[d-1], …, powers[0], (d+2) zeros]` and forward-FFT it over the
extended domain.  The `assert!(powers.len() >= d)` is the `Option` guard; the
`best_fft` call is the explicit `fft` parameter (root `ω₂`, log-size `k+1`). -/
def precompute_y (fft : F → ℕ → List F → List F) (zeta2 : F) (k : ℕ)
    (powers : List F) : Option (List F) :=
  let n := 2 ^ k
  let d := n - 1
  if powers.length < d then none
  else
    let hatS := (powers.take d).reverse ++ List.replicate (d + 2) (0 : F)
    some (fft zeta2 (k + 1) hatS)

/-- `eval_polynomial` (`halo2_lot/src/poly_op.rs` lines 43-69), sequential
branch: Horner's rule `iter().rev().fold(0, |acc, c| acc * x + c)` (the
multicore branch splits the same fold across chunks). -/
def eval_polynomial (p : List F) (x : F) : F :=
  p.foldr (fun c acc => acc * x + c) 0

/-- The Horner value list of `p` at `c`: entry `l` is
`b_l = p_l + c·b_{l+1}` with `b_len = 0`, so `b_0 = p(c)` and `b_1, …` are the
synthetic-division quotient coefficients computed by `poly_divide`'s loop. -/
def hornerList (c : F) : List F → List F
  | [] => []
  | a :: rest => (a + c * (hornerList c rest).headD 0) :: hornerList c rest

/-- `poly_divide` (`halo2_lot/src/poly_op.rs` lines 21-41): synthetic division
of `p` by `(x - c)`.  `n = 0` returns `[]`; `n = 1` panics (`q[n-2]` index
underflow) — `none`; otherwise the loop `q[n-2] = p[n-1]`,
`q[i-1] = p[i] + c·q[i]` produces exactly the tail of the Horner list, and the
final `assert_eq!(p[0] + c*q[0], f_c)` is the equality guard. -/
def poly_divide (p : List F) (c fc : F) : Option (List F) :=
  if p.length = 0 then some []
  else if p.length = 1 then none
  else
    let q := (hornerList c p).tail
    if p.headD 0 + c * q.headD 0 = fc then some q else none

/-- Modelled from the library contract of `ParamsKZG::commit` on a
coefficient-form polynomial: the multi-scalar multiplication
`∑_l q[l] · (g1·s^l)` with the default (zero) blind, i.e. exponent
`∑_l q[l]·s^l`. -/
def commitMSM (s : F) (q : List F) : F :=
  ∑ l ∈ Finset.range q.length, q.getD l 0 * s ^ l

/-- `kzg_open` (`halo2_lot/src/poly_op.rs` lines 91-119): pad `elems` into a
full Lagrange vector, convert to coefficients (`lagrange_to_coeff`, the
opaque external `l2c`), evaluate `f(z)` by Horner, synthetic-divide, and
commit to the quotient with the SRS. -/
def kzg_open (l2c : List F → List F) (s z : F) (k : ℕ) (elems : List F) :
    Option F :=
  let n := 2 ^ k
  let a := (List.range n).map (fun i => elems.getD i 0)
  let coeffs := l2c a
  let fz := eval_polynomial coeffs z
  (poly_divide coeffs z fz).map (fun q => commitMSM s q)

/-- `all_openings_fk` (`halo2_lot/src/poly_op.rs` lines 163-241).  The two
size `assert_eq!`s (`evals.len() == domain_size`, `y.len() == domain2_size`)
come first, then `lagrange_to_coeff` (`l2c`), the `coeffs.len() == d+1`
assertion, the `hat_c` layout (`hat_c[0] = c_d`, `hat_c[d+1] = c_d`,
`hat_c[d+2..] = c_0..c_{d-1}`), the extended-domain forward FFT, the
pointwise product with `y`, the inverse FFT scaled by the extended iFFT
divisor `(2n)⁻¹`, truncation to `[u_0..u_{d-1}, 0]`, and the final forward
FFT over the base domain.  `fft` is the external `best_fft`. -/
def all_openings_fk (fft : F → ℕ → List F → List F) (l2c : List F → List F)
    (zeta2 omega : F) (k : ℕ) (y evals : List F) : Option (List F) :=
  let n := 2 ^ k
  let d := n - 1
  if evals.length ≠ n then none
  else if y.length ≠ 2 * n then none
  else
    let coeffs := l2c evals
    if coeffs.length ≠ d + 1 then none
    else
      let hatC : List F :=
        coeffs.getD d 0 :: (List.replicate d (0 : F) ++ coeffs.getD d 0 :: coeffs.take d)
      let hatCf := fft zeta2 (k + 1) hatC
      let u := List.zipWith (fun ye ce => ye * ce) y hatCf
      let u2 := (fft zeta2⁻¹ (k + 1) u).map (fun v => v * ((2 * n : ℕ) : F)⁻¹)
      let h := u2.take d ++ [(0 : F)]
      some (fft omega k h)

/-- The composition the receiver actually runs: FK openings over the
precomputed `y` table of the SRS power vector. -/
def fkOpenings (fft : F → ℕ → List F → List F) (l2c : List F → List F)
    (zeta2 omega s : F) (k : ℕ) (evals : List F) : Option (List F) :=
  (precompute_y fft zeta2 k (srsPowers s (2 ^ k))).bind
    (fun y => all_openings_fk fft l2c zeta2 omega k y evals)

end WithField

/-! ## Backend dispatch (`trinity/src/commit.rs`) -/

/-- `KZGType` (`trinity/src/commit.rs` lines 55-59). -/
inductive KZGType
  | Plain
  | Halo2
deriving DecidableEq, Repr

/-- `TrinityParams` (`trinity/src/commit.rs` lines 61-65), generic over the
backend parameter payloads. -/
inductive TrinityParams (P H : Type)
  | Plain : P → TrinityParams P H
  | Halo2 : H → TrinityParams P H

/-- `TrinitySenderParams` (`trinity/src/commit.rs` lines 67-71). -/
inductive TrinitySenderParams (P HL : Type)
  | Plain : P → TrinitySenderParams P HL
  | Halo2 : HL → TrinitySenderParams P HL

/-- `TrinityInnerParams` (`trinity/src/commit.rs` lines 73-78). -/
inductive TrinityInnerParams (P H HL : Type)
  | Full : TrinityParams P H → TrinityInnerParams P H HL
  | Sender : TrinitySenderParams P HL → TrinityInnerParams P H HL

/-- `TrinityCom` (`trinity/src/commit.rs` lines 80-84). -/
inductive TrinityCom (CP CH : Type)
  | Plain : CP → TrinityCom CP CH
  | Halo2 : CH → TrinityCom CP CH

/-- `TrinitySender` (`trinity/src/commit.rs` lines 145-148). -/
inductive TrinitySender (SP SH : Type)
  | Plain : SP → TrinitySender SP SH
  | Halo2 : SH → TrinitySender SP SH

/-- `TrinityReceiver` (`trinity/src/commit.rs` lines 140-143). -/
inductive TrinityReceiver (RP RH : Type)
  | Plain : RP → TrinityReceiver RP RH
  | Halo2 : RH → TrinityReceiver RP RH

/-- `TrinityMsg` (`trinity/src/commit.rs` lines 155-159). -/
inductive TrinityMsg (MP MH : Type)
  | Plain : MP → TrinityMsg MP MH
  | Halo2 : MH → TrinityMsg MP MH


variable {P H HL CP CH SP SH RP RH MP MH : Type}

/-- `TrinitySender::new` (`trinity/src/commit.rs` lines 385-395): matched
`(params, com)` variants construct the backend sender (constructors passed as
`plainNew`, `halo2New`); the wildcard arm `panic!("Mismatched commitment
type")` is `none`. -/
def trinitySenderNew (plainNew : P → CP → SP) (halo2New : H → CH → SH) :
    TrinityParams P H → TrinityCom CP CH → Option (TrinitySender SP SH)
  | TrinityParams.Plain ck, TrinityCom.Plain c => some (TrinitySender.Plain (plainNew ck c))
  | TrinityParams.Halo2 p, TrinityCom.Halo2 c => some (TrinitySender.Halo2 (halo2New p c))
  | TrinityParams.Plain _, TrinityCom.Halo2 _ => none
  | TrinityParams.Halo2 _, TrinityCom.Plain _ => none

/-- `Trinity::create_ot_sender` (`trinity/src/commit.rs` lines 322-346): on
`Full` params it defers to `TrinitySender::new`; on `Sender` params it matches
`(sender_params, com)` directly, with the wildcard arm
`panic!("Mismatched commitment type")` as `none`.  (`halo2NewFrom` is
`Halo2OTSender::new_from`.) -/
def create_ot_sender (plainNew : P → CP → SP) (halo2New : H → CH → SH)
    (halo2NewFrom : HL → CH → SH) :
    TrinityInnerParams P H HL → TrinityCom CP CH → Option (TrinitySender SP SH)
  | TrinityInnerParams.Full params, com => trinitySenderNew plainNew halo2New params com
  | TrinityInnerParams.Sender sp, com =>
    match sp, com with
    | TrinitySenderParams.Plain ck, TrinityCom.Plain c =>
      some (TrinitySender.Plain (plainNew ck c))
    | TrinitySenderParams.Halo2 lp, TrinityCom.Halo2 c =>
      some (TrinitySender.Halo2 (halo2NewFrom lp c))
    | TrinitySenderParams.Plain _, TrinityCom.Halo2 _ => none
    | TrinitySenderParams.Halo2 _, TrinityCom.Plain _ => none

/-- `TrinityReceiver::recv` (`trinity/src/commit.rs` lines 368-374): matched
variants call the backend receiver; the wildcard arm
`panic!("Mismatched receiver and message types")` is `none`. -/
def trinityRecv (recvP : RP → ℕ → MP → Option TrinityModel.Bytes16)
    (recvH : RH → ℕ → MH → Option TrinityModel.Bytes16) :
    TrinityReceiver RP RH → ℕ → TrinityMsg MP MH → Option TrinityModel.Bytes16
  | TrinityReceiver.Plain r, i, TrinityMsg.Plain m => recvP r i m
  | TrinityReceiver.Halo2 r, i, TrinityMsg.Halo2 m => recvH r i m
  | TrinityReceiver.Plain _, _, TrinityMsg.Halo2 _ => none
  | TrinityReceiver.Halo2 _, _, TrinityMsg.Plain _ => none

/-! ## A small computable field for concrete instantiations

Witnesses and counterexamples evaluate the model on explicit inputs, so they
need a field whose operations the kernel can reduce; `F5` is `𝔽₅` with a
table-driven inverse. -/

/-- The five-element field, carried by `Fin 5`. -/
def F5 : Type := Fin 5

instance : DecidableEq F5 := inferInstanceAs (DecidableEq (Fin 5))

instance : CommRing F5 := inferInstanceAs (CommRing (Fin 5))

instance : Fintype F5 := inferInstanceAs (Fintype (Fin 5))

/-- Multiplicative inverse on `F5` by lookup table. -/
def f5Inv (a : F5) : F5 := (List.getD [0, 1, 3, 2, 4] (Fin.val (n := 5) a) 0 : Fin 5)

instance : Field F5 :=
  { inferInstanceAs (CommRing F5) with
    inv := f5Inv
    exists_pair_ne := ⟨(0 : Fin 5), (1 : Fin 5), by decide⟩
    mul_inv_cancel := by decide
    inv_zero := by decide
    nnqsmul := fun q a => (q.num : F5) * f5Inv (q.den : F5) * a
    nnqsmul_def := fun _ _ => rfl
    qsmul := fun q a => (q.num : F5) * f5Inv (q.den : F5) * a
    qsmul_def := fun _ _ => rfl }

/-- Concrete keystream for instantiations. -/
def ksW : F5 → Fin 16 → ℕ := fun _ _ => 7

/-- Concrete deployment: domain size `4` with generator `2` (order `4` in
`F5`), secret `s = 0` (distinct from every domain point), extended root `2`
(order `4`), padding scalar `3`. -/
def CW : Ctx F5 :=
  { n := 4, omega := 2, zeta2 := 2, s := 0, padElem := 3, ks := ksW }

/-- Concrete deployment with a short domain: size `2`, generator `4`
(order `2` in `F5`), secret `s = 0`, nonzero padding scalar `1`. -/
def CW2 : Ctx F5 :=
  { n := 2, omega := 4, zeta2 := 2, s := 0, padElem := 1, ks := ksW }

/-- Concrete all-zero 16-byte message. -/
def mW0 : Bytes16 := fun _ => 0

/-- Concrete all-ones 16-byte message. -/
def mW1 : Bytes16 := fun _ => 1

/-- Concrete OT message used where `recv` must fail before reading one. -/
def msgW : OTMsg F5 := { h0 := (0, mW0), h1 := (0, mW0) }

/-! ## General-purpose list lemmas -/

theorem getD_replicate_lt {α : Type} (n i : ℕ) (a d : α) (h : i < n) :
    (List.replicate n a).getD i d = a := by
  rw [List.getD_eq_getElem _ _ (by simpa using h)]
  simp

theorem getD_tail_aux {α : Type} (l : List α) (i : ℕ) (d : α) :
    l.tail.getD i d = l.getD (i + 1) d := by
  cases l <;> simp [List.getD_cons_succ]

theorem get?_range_map {α : Type} (f : ℕ → α) (n i : ℕ) (h : i < n) :
    ((List.range n).map f).get? i = some (f i) := by
  rw [List.get?_map, List.get?_range h]
  rfl

theorem getD_range_map {α : Type} (f : ℕ → α) (n i : ℕ) (d : α) (h : i < n) :
    ((List.range n).map f).getD i d = f i := by
  rw [List.getD_eq_getElem _ _ (by simpa using h)]
  simp

theorem length_toElems {F : Type} [Field F] [DecidableEq F] (bits : List Choice) :
    (toElems (F := F) bits).length = bits.length :=
  List.length_map _ _

theorem get?_eq_some_getD {α : Type} (l : List α) (i : ℕ) (d : α) (h : i < l.length) :
    l.get? i = some (l.getD i d) := by
  rw [List.getD_eq_getElem _ _ h, List.get?_eq_getElem?, List.getElem?_eq_getElem h]

theorem toElems_getD {F : Type} [Field F] [DecidableEq F] (bits : List Choice)
    (i : ℕ) (h : i < bits.length) :
    (toElems (F := F) bits).getD i 0 =
      if bits.getD i Choice.Zero = Choice.One then 1 else 0 := by
  unfold toElems
  rw [List.getD_eq_getElem _ _ (by simpa using h), List.getElem_map,
    List.getD_eq_getElem _ _ h]

theorem getD_of_length_le {α : Type} (l : List α) (i : ℕ) (d : α) (h : l.length ≤ i) :
    l.getD i d = d := by
  rw [List.getD_eq_getElem?_getD, List.getElem?_eq_none h]
  rfl

theorem getD_map_mul {F : Type} [Field F] [DecidableEq F] (l : List F) (c : F) (i : ℕ)
    (h : i < l.length) :
    (l.map (fun v => v * c)).getD i 0 = l.getD i 0 * c := by
  rw [List.getD_eq_getElem _ _ (by simpa using h), List.getElem_map,
    List.getD_eq_getElem _ _ h]

theorem getD_zipWith_mul {F : Type} [Field F] [DecidableEq F] (l1 l2 : List F) (i : ℕ)
    (h1 : i < l1.length) (h2 : i < l2.length) :
    (List.zipWith (fun a b => a * b) l1 l2).getD i 0 = l1.getD i 0 * l2.getD i 0 := by
  rw [List.getD_eq_getElem _ _ (by simp; omega), List.getElem_zipWith,
    List.getD_eq_getElem _ _ h1, List.getD_eq_getElem _ _ h2]

theorem getD_take_lt {α : Type} (l : List α) (n i : ℕ) (d : α) (h : i < n) :
    (l.take n).getD i d = l.getD i d := by
  rw [List.getD_eq_getElem?_getD, List.getElem?_take_of_lt h, ← List.getD_eq_getElem?_getD]

theorem getD_reverse_take {α : Type} (l : List α) (dd i : ℕ) (d : α)
    (hi : i < dd) (hd : dd ≤ l.length) :
    ((l.take dd).reverse).getD i d = l.getD (dd - 1 - i) d := by
  have hlen : (l.take dd).length = dd := by simp [Nat.min_eq_left hd]
  rw [List.getD_eq_getElem _ _ (by simpa [hlen] using hi), List.getElem_reverse]
  simp only [hlen]
  rw [List.getElem_take, List.getD_eq_getElem _ _ (by omega)]

/-! ## Discrete Fourier transform and Horner lemmas -/

theorem dftL_length {F : Type} [Field F] [DecidableEq F] (root : F) (l : List F) :
    (dftL root l).length = l.length := by
  simp [dftL]

theorem dftL_getD {F : Type} [Field F] [DecidableEq F] (root : F) (l : List F) (i : ℕ)
    (h : i < l.length) :
    (dftL root l).getD i 0 = ∑ j ∈ Finset.range l.length, l.getD j 0 * root ^ (i * j) :=
  getD_range_map _ _ _ _ h

theorem dftL_get? {F : Type} [Field F] [DecidableEq F] (root : F) (l : List F) (i : ℕ)
    (h : i < l.length) :
    (dftL root l).get? i =
      some (∑ j ∈ Finset.range l.length, l.getD j 0 * root ^ (i * j)) :=
  get?_range_map _ _ _ h

theorem hornerList_length {F : Type} [Field F] [DecidableEq F] (c : F) (p : List F) :
    (hornerList c p).length = p.length := by
  induction p with
  | nil => rfl
  | cons a rest ih => simp [hornerList, ih]

theorem hornerList_headD_sum {F : Type} [Field F] [DecidableEq F] (c : F) (p : List F) :
    (hornerList c p).headD 0 = ∑ j ∈ Finset.range p.length, p.getD j 0 * c ^ j := by
  induction p with
  | nil => simp [hornerList]
  | cons a rest ih =>
    show a + c * (hornerList c rest).headD 0 = _
    rw [ih, List.length_cons, Finset.sum_range_succ']
    simp only [List.getD_cons_succ, List.getD_cons_zero, pow_zero, mul_one]
    rw [Finset.mul_sum, add_comm]
    congr 1
    apply Finset.sum_congr rfl
    intro j _
    ring

theorem eval_polynomial_eq_sum {F : Type} [Field F] [DecidableEq F] (p : List F) (c : F) :
    eval_polynomial p c = ∑ j ∈ Finset.range p.length, p.getD j 0 * c ^ j := by
  induction p with
  | nil => simp [eval_polynomial]
  | cons a rest ih =>
    show eval_polynomial rest c * c + a = _
    rw [ih, List.length_cons, Finset.sum_range_succ']
    simp only [List.getD_cons_succ, List.getD_cons_zero, pow_zero, mul_one]
    rw [Finset.sum_mul]
    congr 1
    apply Finset.sum_congr rfl
    intro j _
    ring

theorem hornerList_getD {F : Type} [Field F] [DecidableEq F] (c : F) (p : List F) (l : ℕ)
    (h : l < p.length) :
    (hornerList c p).getD l 0 =
      ∑ j ∈ Finset.range (p.length - l), p.getD (l + j) 0 * c ^ j := by
  induction p generalizing l with
  | nil => simp at h
  | cons a rest ih =>
    cases l with
    | zero =>
      show (hornerList c (a :: rest)).headD 0 = _
      rw [hornerList_headD_sum]
      simp
    | succ l =>
      show (hornerList c rest).getD l 0 = _
      rw [ih l (by simpa using h)]
      simp only [List.length_cons]
      rw [show rest.length + 1 - (l + 1) = rest.length - l from by omega]
      congr 1
      funext j
      rw [show l + 1 + j = (l + j) + 1 from by omega, List.getD_cons_succ]

/-! ## Roots of unity and the convolution property of the DFT -/

theorem pow_cycle {F : Type} [Field F] [DecidableEq F] (x : F) (m u : ℕ)
    (hroot : x ^ m = 1) : x ^ u = x ^ (u % m) := by
  conv_lhs => rw [← Nat.div_add_mod u m]
  rw [pow_add, pow_mul, hroot, one_pow, one_mul]

theorem root_ne_zero {F : Type} [Field F] [DecidableEq F] (x : F) (m : ℕ)
    (hm : 0 < m) (hroot : x ^ m = 1) : x ≠ 0 := by
  intro h
  rw [h, zero_pow (by omega)] at hroot
  exact zero_ne_one hroot

theorem pow_prim_inj {F : Type} [Field F] [DecidableEq F] (z : F) (m : ℕ)
    (hm : 0 < m) (hroot : z ^ m = 1)
    (hprim : ∀ t, 0 < t → t < m → z ^ t ≠ 1)
    (u v : ℕ) (hu : u < m) (hv : v < m) (h : z ^ u = z ^ v) : u = v := by
  have hz : z ≠ 0 := root_ne_zero z m hm hroot
  have aux : ∀ a b : ℕ, a < b → b < m → z ^ a = z ^ b → False := by
    intro a b hab hbm hab'
    have h1 : z ^ a * z ^ (b - a) = z ^ a * 1 := by
      rw [mul_one, ← pow_add, show a + (b - a) = b from by omega, hab']
    have h2 : z ^ (b - a) = 1 := mul_left_cancel₀ (pow_ne_zero a hz) h1
    exact hprim (b - a) (by omega) (by omega) h2
  rcases Nat.lt_trichotomy u v with hlt | he | hgt
  · exact absurd (aux u v hlt hv h) (fun f => f)
  · exact he
  · exact absurd (aux v u hgt hu h.symm) (fun f => f)

theorem geom_sum_root {F : Type} [Field F] [DecidableEq F] (x : F) (m : ℕ)
    (hx1 : x ≠ 1) (hxm : x ^ m = 1) : ∑ i ∈ Finset.range m, x ^ i = 0 := by
  have h := geom_sum_mul x m
  rw [hxm, sub_self] at h
  rcases mul_eq_zero.mp h with h' | h'
  · exact h'
  · exact absurd (sub_eq_zero.mp h') hx1

theorem sum_root_indicator {F : Type} [Field F] [DecidableEq F] (z : F) (m : ℕ)
    (hm : 0 < m) (hroot : z ^ m = 1)
    (hprim : ∀ t, 0 < t → t < m → z ^ t ≠ 1)
    (a b l : ℕ) (hl : l < m) :
    ∑ i ∈ Finset.range m, (z ^ a * z ^ b * (z⁻¹) ^ l) ^ i =
      if (a + b) % m = l then ((m : ℕ) : F) else 0 := by
  have hz : z ≠ 0 := root_ne_zero z m hm hroot
  have hxm : (z ^ a * z ^ b * (z⁻¹) ^ l) ^ m = 1 := by
    rw [mul_pow, mul_pow, ← pow_mul, ← pow_mul, ← pow_mul,
      mul_comm a m, mul_comm b m, mul_comm l m, pow_mul, pow_mul, pow_mul,
      hroot, inv_pow, hroot, inv_one, one_pow, one_pow, one_pow, mul_one, mul_one]
  have hx_iff : z ^ a * z ^ b * (z⁻¹) ^ l = 1 ↔ (a + b) % m = l := by
    rw [← pow_add, inv_pow, mul_inv_eq_one₀ (pow_ne_zero l hz)]
    constructor
    · intro h
      refine pow_prim_inj z m hm hroot hprim _ _ (Nat.mod_lt _ hm) hl ?_
      rw [← pow_cycle z m (a + b) hroot, h]
    · intro h
      rw [pow_cycle z m (a + b) hroot, h]
  by_cases hc : (a + b) % m = l
  · rw [if_pos hc]
    rw [show z ^ a * z ^ b * (z⁻¹) ^ l = 1 from hx_iff.mpr hc]
    simp
  · rw [if_neg hc]
    exact geom_sum_root _ m (fun h1 => hc (hx_iff.mp h1)) hxm

/-- The inverse DFT of the pointwise product of two DFTs, scaled by `m⁻¹`, is
the cyclic convolution: entry `l` is `∑_{a+b ≡ l (mod m)} A_a · B_b`. -/
theorem dft_conv {F : Type} [Field F] [DecidableEq F] (z : F) (m : ℕ) (A B : List F)
    (hA : A.length = m) (hB : B.length = m)
    (hm : 0 < m) (hroot : z ^ m = 1)
    (hprim : ∀ t, 0 < t → t < m → z ^ t ≠ 1)
    (hchar : ((m : ℕ) : F) ≠ 0) (l : ℕ) (hl : l < m) :
    ((dftL z⁻¹ (List.zipWith (fun ye ce => ye * ce) (dftL z A) (dftL z B))).map
        (fun v => v * ((m : ℕ) : F)⁻¹)).getD l 0 =
      ∑ a ∈ Finset.range m, ∑ b ∈ Finset.range m,
        (if (a + b) % m = l then A.getD a 0 * B.getD b 0 else 0) := by
  have hlenA : (dftL z A).length = m := by rw [dftL_length, hA]
  have hlenB : (dftL z B).length = m := by rw [dftL_length, hB]
  have hlenZ : (List.zipWith (fun ye ce => ye * ce) (dftL z A) (dftL z B)).length = m := by
    rw [List.length_zipWith, hlenA, hlenB, Nat.min_self]
  have hlenD : (dftL z⁻¹ (List.zipWith (fun ye ce => ye * ce) (dftL z A) (dftL z B))).length
      = m := by rw [dftL_length, hlenZ]
  rw [getD_map_mul _ _ _ (by rw [hlenD]; exact hl)]
  rw [dftL_getD _ _ _ (by rw [hlenZ]; exact hl), hlenZ]
  have hstep : ∀ i ∈ Finset.range m,
      (List.zipWith (fun ye ce => ye * ce) (dftL z A) (dftL z B)).getD i 0 * (z⁻¹) ^ (l * i)
        = ∑ a ∈ Finset.range m, ∑ b ∈ Finset.range m,
            A.getD a 0 * B.getD b 0 * (z ^ a * z ^ b * (z⁻¹) ^ l) ^ i := by
    intro i hi
    rw [Finset.mem_range] at hi
    rw [getD_zipWith_mul _ _ _ (by rw [hlenA]; exact hi) (by rw [hlenB]; exact hi)]
    rw [dftL_getD _ _ _ (by rw [hA]; exact hi), dftL_getD _ _ _ (by rw [hB]; exact hi),
      hA, hB]
    rw [Finset.sum_mul_sum, Finset.sum_mul]
    apply Finset.sum_congr rfl
    intro a _
    rw [Finset.sum_mul]
    apply Finset.sum_congr rfl
    intro b _
    rw [mul_pow, mul_pow, ← pow_mul, ← pow_mul, ← pow_mul]
    rw [mul_comm a i, mul_comm b i, mul_comm l i]
    ring
  have hsum : (∑ i ∈ Finset.range m,
      (List.zipWith (fun ye ce => ye * ce) (dftL z A) (dftL z B)).getD i 0 *
        (z⁻¹) ^ (l * i)) * ((m : ℕ) : F)⁻¹
      = (∑ i ∈ Finset.range m, ∑ a ∈ Finset.range m, ∑ b ∈ Finset.range m,
          A.getD a 0 * B.getD b 0 * (z ^ a * z ^ b * (z⁻¹) ^ l) ^ i) * ((m : ℕ) : F)⁻¹ := by
    rw [Finset.sum_congr rfl hstep]
  rw [hsum, Finset.sum_comm, Finset.sum_mul]
  apply Finset.sum_congr rfl
  intro a _
  rw [Finset.sum_comm, Finset.sum_mul]
  apply Finset.sum_congr rfl
  intro b _
  rw [← Finset.mul_sum, sum_root_indicator z m hm hroot hprim a b l hl]
  by_cases hc : (a + b) % m = l
  · rw [if_pos hc, if_pos hc, mul_assoc, mul_inv_cancel₀ hchar, mul_one]
  · rw [if_neg hc, if_neg hc, mul_zero, zero_mul]

/-! ## Entries of the FK input vectors `hat_s` and `hat_c` -/

theorem srsPowers_length {F : Type} [Field F] [DecidableEq F] (s : F) (n : ℕ) :
    (srsPowers s n).length = n := by
  simp [srsPowers]

theorem hatS_getD_lt {F : Type} [Field F] [DecidableEq F] (s : F) (n d a : ℕ)
    (hd : d ≤ n) (ha : a < d) :
    (((srsPowers s n).take d).reverse ++ List.replicate (d + 2) (0 : F)).getD a 0
      = s ^ (d - 1 - a) := by
  have hlen : (((srsPowers s n).take d).reverse).length = d := by
    simp [srsPowers_length, Nat.min_eq_left hd]
  rw [List.getD_append _ _ _ _ (by rw [hlen]; exact ha)]
  rw [getD_reverse_take _ _ _ _ ha (by rw [srsPowers_length]; exact hd)]
  exact getD_range_map _ _ _ _ (by omega)

theorem hatS_getD_ge {F : Type} [Field F] [DecidableEq F] (s : F) (n d a : ℕ)
    (hd : d ≤ n) (ha : d ≤ a) :
    (((srsPowers s n).take d).reverse ++ List.replicate (d + 2) (0 : F)).getD a 0 = 0 := by
  have hlen : (((srsPowers s n).take d).reverse).length = d := by
    simp [srsPowers_length, Nat.min_eq_left hd]
  rw [List.getD_append_right _ _ _ _ (by rw [hlen]; exact ha)]
  by_cases h : a - (((srsPowers s n).take d).reverse).length < d + 2
  · exact getD_replicate_lt _ _ _ _ h
  · exact getD_of_length_le _ _ _ (by simp; omega)

theorem hatC_getD_zero {F : Type} [Field F] [DecidableEq F] (cd : F) (d : ℕ)
    (rest : List F) :
    (cd :: (List.replicate d (0 : F) ++ cd :: rest)).getD 0 0 = cd :=
  List.getD_cons_zero

theorem hatC_getD_mid {F : Type} [Field F] [DecidableEq F] (cd : F) (d : ℕ)
    (rest : List F) (b : ℕ) (h1 : 1 ≤ b) (h2 : b ≤ d) :
    (cd :: (List.replicate d (0 : F) ++ cd :: rest)).getD b 0 = 0 := by
  rw [show b = (b - 1) + 1 from by omega, List.getD_cons_succ]
  rw [List.getD_append _ _ _ _ (by simp; omega)]
  exact getD_replicate_lt _ _ _ _ (by omega)

theorem hatC_getD_succ_d {F : Type} [Field F] [DecidableEq F] (cd : F) (d : ℕ)
    (rest : List F) :
    (cd :: (List.replicate d (0 : F) ++ cd :: rest)).getD (d + 1) 0 = cd := by
  rw [List.getD_cons_succ]
  rw [List.getD_append_right _ _ _ _ (by simp)]
  simp

theorem hatC_getD_hi {F : Type} [Field F] [DecidableEq F] (cd : F) (d : ℕ)
    (rest : List F) (b : ℕ) (h1 : d + 2 ≤ b) (h2 : b - d - 2 < rest.length) :
    (cd :: (List.replicate d (0 : F) ++ cd :: rest)).getD b 0
      = rest.getD (b - d - 2) 0 := by
  rw [show b = (b - 1) + 1 from by omega, List.getD_cons_succ]
  rw [List.getD_append_right _ _ _ _ (by simp; omega)]
  rw [show b - 1 - (List.replicate d (0 : F)).length = (b - d - 2) + 1 from by simp; omega]
  rw [List.getD_cons_succ]
  congr 1
  omega

/-- Collapse the inner sum of a cyclic-convolution term: for each `a` there is
exactly one `b < m` with `(a + b) % m = l`, namely `(m + l - a) % m`. -/
theorem sum_ite_mod {F : Type} [Field F] [DecidableEq F] (m l a : ℕ)
    (hm : 0 < m) (hl : l < m) (ha : a < m) (g : ℕ → F) :
    ∑ b ∈ Finset.range m, (if (a + b) % m = l then g b else 0)
      = g ((m + l - a) % m) := by
  have hb0 : (a + (m + l - a) % m) % m = l := by
    rw [Nat.add_mod_mod, show a + (m + l - a) = m + l from by omega,
      Nat.add_mod_left, Nat.mod_eq_of_lt hl]
  rw [Finset.sum_eq_single ((m + l - a) % m)]
  · rw [if_pos hb0]
  · intro b hb hne
    rw [Finset.mem_range] at hb
    apply if_neg
    intro hc
    apply hne
    have hmod : (a + b) % m = (a + (m + l - a) % m) % m := by rw [hc, hb0]
    have hcancel : b % m = ((m + l - a) % m) % m :=
      Nat.ModEq.add_left_cancel' a hmod
    rw [Nat.mod_eq_of_lt hb, Nat.mod_eq_of_lt (Nat.mod_lt _ hm)] at hcancel
    exact hcancel
  · intro hnot
    exact absurd (Finset.mem_range.mpr (Nat.mod_lt _ hm)) hnot

/-- Evaluate the cyclic convolution of `hat_s` and `hat_c` at position
`l < d`: it is the `l`-th coefficient of the FK quotient-commitment
polynomial, `∑_{t=l+1}^{d} c_t · s^(t-1-l)`, written here as a sum over
`a = d + l - t`. -/
theorem conv_eval {F : Type} [Field F] [DecidableEq F] (s : F) (n : ℕ) (coeffs : List F)
    (hn : 2 ≤ n) (hclen : coeffs.length = n) (l : ℕ) (hl : l < n - 1) :
    ∑ a ∈ Finset.range (2 * n), ∑ b ∈ Finset.range (2 * n),
      (if (a + b) % (2 * n) = l then
        ((((srsPowers s n).take (n - 1)).reverse ++
            List.replicate ((n - 1) + 2) (0 : F)).getD a 0) *
        ((coeffs.getD (n - 1) 0 ::
            (List.replicate (n - 1) (0 : F) ++
              coeffs.getD (n - 1) 0 :: coeffs.take (n - 1))).getD b 0)
       else 0)
      = ∑ a ∈ Finset.Ico l (n - 1),
          s ^ (n - 1 - 1 - a) * coeffs.getD ((n - 1) + l - a) 0 := by
  have hm : 0 < 2 * n := by omega
  have hlm : l < 2 * n := by omega
  have hstep1 : ∀ a ∈ Finset.range (2 * n),
      (∑ b ∈ Finset.range (2 * n),
        (if (a + b) % (2 * n) = l then
          ((((srsPowers s n).take (n - 1)).reverse ++
              List.replicate ((n - 1) + 2) (0 : F)).getD a 0) *
          ((coeffs.getD (n - 1) 0 ::
              (List.replicate (n - 1) (0 : F) ++
                coeffs.getD (n - 1) 0 :: coeffs.take (n - 1))).getD b 0)
         else 0))
      = ((((srsPowers s n).take (n - 1)).reverse ++
            List.replicate ((n - 1) + 2) (0 : F)).getD a 0) *
        ((coeffs.getD (n - 1) 0 ::
            (List.replicate (n - 1) (0 : F) ++
              coeffs.getD (n - 1) 0 :: coeffs.take (n - 1))).getD
          ((2 * n + l - a) % (2 * n)) 0) := by
    intro a haa
    rw [Finset.mem_range] at haa
    exact sum_ite_mod (2 * n) l a hm hlm haa _
  rw [Finset.sum_congr rfl hstep1]
  rw [show (Finset.range (2 * n)) = Finset.range (2 * n) from rfl]
  -- drop the terms with a ≥ d: hat_s is zero there
  rw [← Finset.sum_subset
    (show Finset.Ico l (n - 1) ⊆ Finset.range (2 * n) from by
      intro x hx
      rw [Finset.mem_Ico] at hx
      rw [Finset.mem_range]
      omega)]
  · apply Finset.sum_congr rfl
    intro a ha
    rw [Finset.mem_Ico] at ha
    rw [hatS_getD_lt s n (n - 1) a (by omega) (by omega)]
    by_cases hal : a = l
    · subst hal
      rw [show (2 * n + a - a) % (2 * n) = 0 from by
        rw [show 2 * n + a - a = 2 * n from by omega, Nat.mod_self]]
      rw [hatC_getD_zero]
      rw [show (n - 1) + a - a = n - 1 from by omega]
    · have hgt : l < a := by omega
      rw [show (2 * n + l - a) % (2 * n) = 2 * n + l - a from
        Nat.mod_eq_of_lt (by omega)]
      rw [hatC_getD_hi _ _ _ _ (by omega)
        (by
          rw [List.length_take, hclen, Nat.min_eq_left (by omega)]
          omega)]
      rw [getD_take_lt _ _ _ _ (by omega)]
      rw [show 2 * n + l - a - (n - 1) - 2 = (n - 1) + l - a from by omega]
  · intro a ha hnot
    rw [Finset.mem_range] at ha
    rw [Finset.mem_Ico] at hnot
    by_cases had : a < n - 1
    · -- then a < l: hat_c at (2n + l - a) % (2n) = l - a ∈ [1, d] is zero
      have hal : a < l := by omega
      rw [show (2 * n + l - a) % (2 * n) = l - a from by
        rw [show 2 * n + l - a = 2 * n + (l - a) from by omega, Nat.add_mod_left,
          Nat.mod_eq_of_lt (by omega)]]
      rw [hatC_getD_mid _ _ _ _ (by omega) (by omega), mul_zero]
    · rw [hatS_getD_ge s n (n - 1) a (by omega) (by omega), zero_mul]

/-! ## Evaluating `kzg_open` and the FK pipeline -/

theorem padTo_self {α : Type} (l : List α) (n : ℕ) (d : α) (h : l.length = n) :
    (List.range n).map (fun i => l.getD i d) = l := by
  apply List.ext_getElem
  · simp [h]
  · intro i h1 h2
    rw [List.getElem_map, List.getElem_range, List.getD_eq_getElem _ _ h2]

theorem poly_divide_eval {F : Type} [Field F] [DecidableEq F] (p : List F) (c : F)
    (hp : 2 ≤ p.length) :
    poly_divide p c (eval_polynomial p c) = some ((hornerList c p).tail) := by
  have h0 : ¬ (p.length = 0) := by omega
  have h1 : ¬ (p.length = 1) := by omega
  have hassert : p.headD 0 + c * ((hornerList c p).tail).headD 0
      = eval_polynomial p c := by
    cases p with
    | nil => simp at hp
    | cons a rest =>
      show a + c * (hornerList c rest).headD 0 = _
      rw [hornerList_headD_sum, eval_polynomial_eq_sum, List.length_cons,
        Finset.sum_range_succ']
      simp only [List.getD_cons_succ, List.getD_cons_zero, pow_zero, mul_one]
      rw [Finset.mul_sum, add_comm]
      congr 1
      apply Finset.sum_congr rfl
      intro j _
      ring
  unfold poly_divide
  rw [if_neg h0, if_neg h1]
  show (if p.headD 0 + c * ((hornerList c p).tail).headD 0 = eval_polynomial p c
    then some ((hornerList c p).tail) else none) = _
  rw [if_pos hassert]

theorem quotient_getD {F : Type} [Field F] [DecidableEq F] (p : List F) (c : F) (l : ℕ)
    (h : l + 1 < p.length) :
    ((hornerList c p).tail).getD l 0
      = ∑ j ∈ Finset.range (p.length - l - 1), p.getD (l + 1 + j) 0 * c ^ j := by
  rw [getD_tail_aux, hornerList_getD c p (l + 1) h]
  congr 1

/-- `kzg_open` on a full-length evaluation vector: Horner evaluation succeeds,
synthetic division succeeds, and the commitment to the quotient is the double
sum `∑_l s^l · ∑_{t>l} c_t z^(t-1-l)` (inner index `j = t - 1 - l`). -/
theorem kzg_open_eval {F : Type} [Field F] [DecidableEq F] (l2c : List F → List F)
    (s z : F) (k : ℕ) (elems : List F)
    (hk : 1 ≤ k) (helen : elems.length = 2 ^ k) (hlen : (l2c elems).length = 2 ^ k) :
    kzg_open l2c s z k elems
      = some (∑ l ∈ Finset.range (2 ^ k - 1),
          (∑ j ∈ Finset.range (2 ^ k - 1 - l), (l2c elems).getD (l + 1 + j) 0 * z ^ j)
            * s ^ l) := by
  have hn2 : 2 ≤ 2 ^ k := by
    calc 2 = 2 ^ 1 := (pow_one 2).symm
    _ ≤ 2 ^ k := Nat.pow_le_pow_right (by omega) hk
  have hb : 2 ^ k - 1 + 1 = 2 ^ k := Nat.sub_add_cancel (le_trans (by norm_num) hn2)
  show (poly_divide (l2c ((List.range (2 ^ k)).map (fun i => elems.getD i 0))) z
      (eval_polynomial (l2c ((List.range (2 ^ k)).map (fun i => elems.getD i 0))) z)).map
      (fun q => commitMSM s q) = _
  rw [padTo_self elems (2 ^ k) 0 helen]
  rw [poly_divide_eval _ _ (by rw [hlen]; exact hn2)]
  rw [Option.map_some']
  congr 1
  show commitMSM s ((hornerList z (l2c elems)).tail) = _
  unfold commitMSM
  have hqlen : ((hornerList z (l2c elems)).tail).length = 2 ^ k - 1 := by
    rw [List.length_tail, hornerList_length, hlen]
  rw [hqlen]
  apply Finset.sum_congr rfl
  intro l hll
  rw [Finset.mem_range] at hll
  rw [quotient_getD _ _ _ (by rw [hlen]; omega)]
  rw [hlen]
  rw [show 2 ^ k - l - 1 = 2 ^ k - 1 - l from by omega]

/-- The FK pipeline on a full-length evaluation vector, over the `y` table
precomputed from the SRS power vector: the `i`-th opening is
`∑_{l<d} h_l · (ω^i)^l` with `h_l` the convolution coefficients of
`conv_eval`. -/
theorem fk_openings_eval {F : Type} [Field F] [DecidableEq F]
    (l2c : List F → List F) (z omega s : F) (k : ℕ) (evals : List F) (i : ℕ)
    (hk : 1 ≤ k) (hev : evals.length = 2 ^ k) (hi : i < 2 ^ k)
    (hlen : (l2c evals).length = 2 ^ k)
    (hroot : z ^ (2 * 2 ^ k) = 1)
    (hprim : ∀ t, 0 < t → t < 2 * 2 ^ k → z ^ t ≠ 1)
    (hchar : ((2 * 2 ^ k : ℕ) : F) ≠ 0) :
    (fkOpenings dftSpec l2c z omega s k evals).bind (fun L => L.get? i)
      = some (∑ l ∈ Finset.range (2 ^ k - 1),
          (∑ a ∈ Finset.Ico l (2 ^ k - 1),
            s ^ (2 ^ k - 1 - 1 - a) * (l2c evals).getD ((2 ^ k - 1) + l - a) 0)
          * (omega ^ i) ^ l) := by
  have hn2 : 2 ≤ 2 ^ k := by
    calc 2 = 2 ^ 1 := (pow_one 2).symm
    _ ≤ 2 ^ k := Nat.pow_le_pow_right (by omega) hk
  have hb : 2 ^ k - 1 + 1 = 2 ^ k := Nat.sub_add_cancel (le_trans (by norm_num) hn2)
  have hm : 0 < 2 * 2 ^ k := by omega
  have hlenS : (((srsPowers s (2 ^ k)).take (2 ^ k - 1)).reverse ++ List.replicate (2 ^ k - 1 + 2) (0 : F)).length = 2 * 2 ^ k := by
    simp only [List.length_append, List.length_reverse, List.length_take,
      srsPowers_length, List.length_replicate]
    omega
  have hlenC : ((l2c evals).getD (2 ^ k - 1) 0 :: (List.replicate (2 ^ k - 1) (0 : F) ++ (l2c evals).getD (2 ^ k - 1) 0 :: (l2c evals).take (2 ^ k - 1))).length = 2 * 2 ^ k := by
    simp only [List.length_cons, List.length_append, List.length_replicate,
      List.length_take, hlen]
    omega
  have hpre : precompute_y (dftSpec (F := F)) z k (srsPowers s (2 ^ k))
      = some (dftL z (((srsPowers s (2 ^ k)).take (2 ^ k - 1)).reverse ++ List.replicate (2 ^ k - 1 + 2) (0 : F))) := by
    show (if (srsPowers s (2 ^ k)).length < 2 ^ k - 1 then none
      else some (dftSpec z (k + 1) (((srsPowers s (2 ^ k)).take (2 ^ k - 1)).reverse ++ List.replicate (2 ^ k - 1 + 2) (0 : F)))) = _
    rw [if_neg (by rw [srsPowers_length]; omega)]
    rfl
  have hyl : (dftL z (((srsPowers s (2 ^ k)).take (2 ^ k - 1)).reverse ++ List.replicate (2 ^ k - 1 + 2) (0 : F))).length = 2 * 2 ^ k := by
    rw [dftL_length]
    exact hlenS
  have hg1 : ¬ (evals.length ≠ 2 ^ k) := fun h => h hev
  have hg2 : ¬ ((dftL z (((srsPowers s (2 ^ k)).take (2 ^ k - 1)).reverse ++ List.replicate (2 ^ k - 1 + 2) (0 : F))).length ≠ 2 * 2 ^ k) := fun h => h hyl
  have hg3 : ¬ ((l2c evals).length ≠ 2 ^ k - 1 + 1) := by rw [hlen]; omega
  have hu2len : (List.map (fun v => v * ((2 * 2 ^ k : ℕ) : F)⁻¹) (dftL z⁻¹ (List.zipWith (fun ye ce => ye * ce) (dftL z (((srsPowers s (2 ^ k)).take (2 ^ k - 1)).reverse ++ List.replicate (2 ^ k - 1 + 2) (0 : F))) (dftL z ((l2c evals).getD (2 ^ k - 1) 0 :: (List.replicate (2 ^ k - 1) (0 : F) ++ (l2c evals).getD (2 ^ k - 1) 0 :: (l2c evals).take (2 ^ k - 1))))))).length = 2 * 2 ^ k := by
    simp only [List.length_map, dftL_length, List.length_zipWith, hlenS, hlenC,
      Nat.min_self]
  have hhlen : ((List.map (fun v => v * ((2 * 2 ^ k : ℕ) : F)⁻¹) (dftL z⁻¹ (List.zipWith (fun ye ce => ye * ce) (dftL z (((srsPowers s (2 ^ k)).take (2 ^ k - 1)).reverse ++ List.replicate (2 ^ k - 1 + 2) (0 : F))) (dftL z ((l2c evals).getD (2 ^ k - 1) 0 :: (List.replicate (2 ^ k - 1) (0 : F) ++ (l2c evals).getD (2 ^ k - 1) 0 :: (l2c evals).take (2 ^ k - 1))))))).take (2 ^ k - 1) ++ [(0 : F)]).length = 2 ^ k := by
    simp only [List.length_append, List.length_take, hu2len, List.length_cons,
      List.length_nil]
    omega
  unfold fkOpenings
  rw [hpre, Option.some_bind]
  show ((if evals.length ≠ 2 ^ k then (none : Option (List F)) else _).bind
    (fun (L : List F) => L.get? i)) = _
  rw [if_neg hg1]
  show ((if (dftL z (((srsPowers s (2 ^ k)).take (2 ^ k - 1)).reverse ++ List.replicate (2 ^ k - 1 + 2) (0 : F))).length ≠ 2 * 2 ^ k then (none : Option (List F)) else _).bind
    (fun (L : List F) => L.get? i)) = _
  rw [if_neg hg2]
  show ((if (l2c evals).length ≠ 2 ^ k - 1 + 1 then (none : Option (List F)) else _).bind
    (fun (L : List F) => L.get? i)) = _
  rw [if_neg hg3]
  show ((some (dftL omega ((List.map (fun v => v * ((2 * 2 ^ k : ℕ) : F)⁻¹) (dftL z⁻¹ (List.zipWith (fun ye ce => ye * ce) (dftL z (((srsPowers s (2 ^ k)).take (2 ^ k - 1)).reverse ++ List.replicate (2 ^ k - 1 + 2) (0 : F))) (dftL z ((l2c evals).getD (2 ^ k - 1) 0 :: (List.replicate (2 ^ k - 1) (0 : F) ++ (l2c evals).getD (2 ^ k - 1) 0 :: (l2c evals).take (2 ^ k - 1))))))).take (2 ^ k - 1) ++ [(0 : F)])) : Option (List F)).bind
    (fun (L : List F) => L.get? i)) = _
  rw [Option.some_bind]
  rw [dftL_get? _ _ _ (by rw [hhlen]; exact hi), hhlen]
  congr 1
  have hr : Finset.range (2 ^ k) = Finset.range (2 ^ k - 1 + 1) := by rw [hb]
  rw [hr, Finset.sum_range_succ]
  rw [List.getD_append_right _ _ _ _ (by rw [List.length_take, hu2len]; omega)]
  rw [show 2 ^ k - 1 - ((List.map (fun v => v * ((2 * 2 ^ k : ℕ) : F)⁻¹) (dftL z⁻¹ (List.zipWith (fun ye ce => ye * ce) (dftL z (((srsPowers s (2 ^ k)).take (2 ^ k - 1)).reverse ++ List.replicate (2 ^ k - 1 + 2) (0 : F))) (dftL z ((l2c evals).getD (2 ^ k - 1) 0 :: (List.replicate (2 ^ k - 1) (0 : F) ++ (l2c evals).getD (2 ^ k - 1) 0 :: (l2c evals).take (2 ^ k - 1))))))).take (2 ^ k - 1)).length = 0 from by
    rw [List.length_take, hu2len]
    omega]
  simp only [List.getD_cons_zero, zero_mul, add_zero]
  apply Finset.sum_congr rfl
  intro l hll
  rw [Finset.mem_range] at hll
  rw [List.getD_append _ _ _ _ (by rw [List.length_take, hu2len]; omega)]
  rw [getD_take_lt _ _ _ _ hll]
  rw [dft_conv z (2 * 2 ^ k) (((srsPowers s (2 ^ k)).take (2 ^ k - 1)).reverse ++ List.replicate (2 ^ k - 1 + 2) (0 : F)) ((l2c evals).getD (2 ^ k - 1) 0 :: (List.replicate (2 ^ k - 1) (0 : F) ++ (l2c evals).getD (2 ^ k - 1) 0 :: (l2c evals).take (2 ^ k - 1))) hlenS hlenC hm hroot hprim hchar l (by omega)]
  rw [conv_eval s (2 ^ k) (l2c evals) hn2 hlen l (by omega)]
  rw [pow_mul]


/-- The double-sum exchange between the FK form
`∑_l (∑_{t>l} c_t s^(t-1-l)) z^l` and the naive form
`∑_l (∑_{t>l} c_t z^(t-1-l)) s^l` (with `a = d + l - t` and `j = t - 1 - l`
as inner indices): both enumerate `c_t · s^u · z^v` over `u + v = t - 1`. -/
theorem sum_swap_quotient {F : Type} [Field F] [DecidableEq F] (s z : F) (d : ℕ)
    (c : List F) :
    ∑ l ∈ Finset.range d,
        (∑ a ∈ Finset.Ico l d, s ^ (d - 1 - a) * c.getD (d + l - a) 0) * z ^ l
      = ∑ l ∈ Finset.range d,
          (∑ j ∈ Finset.range (d - l), c.getD (l + 1 + j) 0 * z ^ j) * s ^ l := by
  have hL : ∀ l ∈ Finset.range d,
      (∑ a ∈ Finset.Ico l d, s ^ (d - 1 - a) * c.getD (d + l - a) 0) * z ^ l
        = ∑ j ∈ Finset.range (d - l), s ^ (d - 1 - l - j) * c.getD (d - j) 0 * z ^ l := by
    intro l hl
    rw [Finset.sum_Ico_eq_sum_range, Finset.sum_mul]
    apply Finset.sum_congr rfl
    intro j hj
    rw [Finset.mem_range] at hj
    rw [show d - 1 - (l + j) = d - 1 - l - j from by omega,
      show d + l - (l + j) = d - j from by omega]
  have hR : ∀ l ∈ Finset.range d,
      (∑ j ∈ Finset.range (d - l), c.getD (l + 1 + j) 0 * z ^ j) * s ^ l
        = ∑ j ∈ Finset.range (d - l), c.getD (l + 1 + j) 0 * z ^ j * s ^ l := by
    intro l _
    rw [Finset.sum_mul]
  rw [Finset.sum_congr rfl hL, Finset.sum_congr rfl hR]
  rw [Finset.sum_sigma', Finset.sum_sigma']
  apply Finset.sum_nbij' (fun p => ⟨d - 1 - p.1 - p.2, p.1⟩)
    (fun p => ⟨p.2, d - 1 - p.1 - p.2⟩)
  · intro p hp
    rw [Finset.mem_sigma, Finset.mem_range, Finset.mem_range] at hp
    exact Finset.mem_sigma.mpr
      ⟨Finset.mem_range.mpr (by omega : d - 1 - p.fst - p.snd < d),
       Finset.mem_range.mpr (by omega : p.fst < d - (d - 1 - p.fst - p.snd))⟩
  · intro p hp
    rw [Finset.mem_sigma, Finset.mem_range, Finset.mem_range] at hp
    exact Finset.mem_sigma.mpr
      ⟨Finset.mem_range.mpr (by omega : p.snd < d),
       Finset.mem_range.mpr (by omega : d - 1 - p.fst - p.snd < d - p.snd)⟩
  · intro p hp
    rw [Finset.mem_sigma, Finset.mem_range, Finset.mem_range] at hp
    show (⟨p.fst, d - 1 - (d - 1 - p.fst - p.snd) - p.fst⟩ : Σ _ : ℕ, ℕ) = p
    rw [show d - 1 - (d - 1 - p.fst - p.snd) - p.fst = p.snd from by omega]
  · intro p hp
    rw [Finset.mem_sigma, Finset.mem_range, Finset.mem_range] at hp
    show (⟨d - 1 - p.snd - (d - 1 - p.fst - p.snd), p.snd⟩ : Σ _ : ℕ, ℕ) = p
    rw [show d - 1 - p.snd - (d - 1 - p.fst - p.snd) = p.fst from by omega]
  · intro p hp
    rw [Finset.mem_sigma, Finset.mem_range, Finset.mem_range] at hp
    show s ^ (d - 1 - p.1 - p.2) * c.getD (d - p.2) 0 * z ^ p.1
      = c.getD ((d - 1 - p.1 - p.2) + 1 + p.1) 0 * z ^ p.1 * s ^ (d - 1 - p.1 - p.2)
    rw [show (d - 1 - p.1 - p.2) + 1 + p.1 = d - p.2 from by omega]
    ring

/-! ## Lagrange interpolation at the nodes -/

theorem lagBasis_self {F : Type} [Field F] [DecidableEq F] (omega : F) (n t : ℕ)
    (hinj : ∀ a, a < n → ∀ b, b < n → omega ^ a = omega ^ b → a = b) (ht : t < n) :
    lagBasis omega n t (omega ^ t) = 1 := by
  unfold lagBasis
  apply Finset.prod_eq_one
  intro j hj
  rw [Finset.mem_erase, Finset.mem_range] at hj
  exact div_self (sub_ne_zero.mpr (fun he => hj.1 (hinj t ht j hj.2 he).symm))

theorem lagBasis_ne {F : Type} [Field F] [DecidableEq F] (omega : F) (n i t : ℕ)
    (hit : i ≠ t) (ht : t < n) :
    lagBasis omega n i (omega ^ t) = 0 := by
  unfold lagBasis
  apply Finset.prod_eq_zero
    (Finset.mem_erase.mpr ⟨fun h => hit h.symm, Finset.mem_range.mpr ht⟩)
  rw [sub_self, zero_div]

theorem interpEval_node {F : Type} [Field F] [DecidableEq F] (omega : F) (n : ℕ)
    (elems : List F) (t : ℕ)
    (hinj : ∀ a, a < n → ∀ b, b < n → omega ^ a = omega ^ b → a = b) (ht : t < n) :
    interpEval omega n elems (omega ^ t) = elems.getD t 0 := by
  unfold interpEval
  rw [Finset.sum_eq_single t]
  · rw [lagBasis_self omega n t hinj ht, mul_one]
  · intro b _ hbt
    rw [lagBasis_ne omega n b t hbt ht, mul_zero]
  · intro h
    exact absurd (Finset.mem_range.mpr ht) h

/-- Shared helper: XOR keystream decryption undoes encryption under the same
pad (both backends' cipher bodies are this function of the keystream). -/
theorem decrypt_encrypt_eq {F : Type} [Field F] [DecidableEq F]
    (ks : F → Fin 16 → ℕ) (pad : F) (m : Bytes16) :
    decrypt ks pad (encrypt ks pad m) = m := by
  funext t
  show ks pad t ^^^ (ks pad t ^^^ m t) = m t
  rw [← Nat.xor_assoc, Nat.xor_self, Nat.zero_xor]

/-- Shared helper: the halo2 variant of `decrypt_encrypt_eq`. -/
theorem halo2_decrypt_encrypt_eq {F : Type} [Field F] [DecidableEq F]
    (ks : F → Fin 16 → ℕ) (pad : F) (m : Bytes16) :
    halo2Decrypt ks pad (halo2Encrypt ks pad m) = m := by
  funext t
  show ks pad t ^^^ (ks pad t ^^^ m t) = m t
  rw [← Nat.xor_assoc, Nat.xor_self, Nat.zero_xor]

/-! ## Claim theorems -/

/-- C9.  For every target-group pad value `p` and every 16-byte message `m`,
`decrypt(p, encrypt(p, m)) = m`: the keystream cipher is an involution in its
ciphertext argument when keyed by the same pad, in both the plain and the
circuit-certified backend. -/
theorem encrypt_then_decrypt_id {F : Type} [Field F] [DecidableEq F]
    (ks : F → Fin 16 → ℕ) (pad : F) (m : Bytes16) :
    decrypt ks pad (encrypt ks pad m) = m ∧
    halo2Decrypt ks pad (halo2Encrypt ks pad m) = m :=
  ⟨decrypt_encrypt_eq ks pad m, halo2_decrypt_encrypt_eq ks pad m⟩

/-- C8.  The dispatch layer rejects every pairing of a commitment tagged with
one backend and parameters tagged with the other: `create_ot_sender` with
mismatched tags fails (both through `TrinitySender::new` on full parameters
and through the inline match on sender parameters), and
`TrinityReceiver::recv` with a message of the other backend's variant fails;
no arm coerces one backend's wire type into the other's. -/
theorem dispatch_rejects_mismatch {P H HL CP CH SP SH RP RH MP MH : Type}
    (plainNew : P → CP → SP) (halo2New : H → CH → SH) (halo2NewFrom : HL → CH → SH)
    (recvP : RP → ℕ → MP → Option Bytes16) (recvH : RH → ℕ → MH → Option Bytes16) :
    (∀ p c, create_ot_sender plainNew halo2New halo2NewFrom
      (TrinityInnerParams.Full (TrinityParams.Plain p)) (TrinityCom.Halo2 c) = none) ∧
    (∀ h c, create_ot_sender plainNew halo2New halo2NewFrom
      (TrinityInnerParams.Full (TrinityParams.Halo2 h)) (TrinityCom.Plain c) = none) ∧
    (∀ p c, create_ot_sender plainNew halo2New halo2NewFrom
      (TrinityInnerParams.Sender (TrinitySenderParams.Plain p)) (TrinityCom.Halo2 c) = none) ∧
    (∀ l c, create_ot_sender plainNew halo2New halo2NewFrom
      (TrinityInnerParams.Sender (TrinitySenderParams.Halo2 l)) (TrinityCom.Plain c) = none) ∧
    (∀ r i m, trinityRecv recvP recvH
      (TrinityReceiver.Plain r) i (TrinityMsg.Halo2 m) = none) ∧
    (∀ r i m, trinityRecv recvP recvH
      (TrinityReceiver.Halo2 r) i (TrinityMsg.Plain m) = none) :=
  ⟨fun _ _ => rfl, fun _ _ => rfl, fun _ _ => rfl, fun _ _ => rfl,
   fun _ _ _ => rfl, fun _ _ _ => rfl⟩

/-- C6.  If `evals.len()` differs from the domain size `2^k` or the
precomputed `y` table's length differs from the extended size `2·2^k`, then
`all_openings_fk` fails, and it does so before any transform runs: the result
is `none` for every `fft` implementation and every `lagrange_to_coeff`
implementation, so no FFT output can influence it. -/
theorem all_openings_fk_rejects_bad_lengths {F : Type} [Field F] [DecidableEq F]
    (fft : F → ℕ → List F → List F) (l2c : List F → List F) (zeta2 omega : F)
    (k : ℕ) (y evals : List F)
    (h : evals.length ≠ 2 ^ k ∨ y.length ≠ 2 * 2 ^ k) :
    all_openings_fk fft l2c zeta2 omega k y evals = none := by
  rcases h with h | h
  · simp [all_openings_fk, h]
  · by_cases h1 : evals.length = 2 ^ k <;> simp [all_openings_fk, h, h1]

/-- Witness for C6 at a concrete malformed input. -/
theorem all_openings_fk_rejects_bad_lengths_witness :
    (([] : List F5).length ≠ 2 ^ 2 ∨ ([] : List F5).length ≠ 2 * 2 ^ 2) ∧
    all_openings_fk (fun _ _ l => l) id (1 : F5) 1 2 [] [] = none :=
  ⟨Or.inl (by decide),
   all_openings_fk_rejects_bad_lengths (fun _ _ l => l) id 1 1 2 [] []
     (Or.inl (by decide))⟩

/-- C10.  A plain-backend receiver retains only the `m` input bits
(`bits: bits.to_vec()`), not the padded length-`n` vector, so `recv(i, msg)`
with `m ≤ i < n` hits the out-of-bounds access `self.bits[i]` and fails,
even though `i` is a valid domain index and the opening set has full length
`n` (so `q_i` exists). -/
theorem recv_fails_beyond_retained_bits {F : Type} [Field F] [DecidableEq F]
    (C : Ctx F) (bits : List Choice) (i : ℕ) (msg : OTMsg F)
    (hm : bits.length ≤ C.n) (h1 : bits.length ≤ i) (h2 : i < C.n) :
    recvNew C bits = some (recvNewD C bits) ∧
    (recvNewD C bits).bits = bits ∧
    (recvNewD C bits).qs.length = C.n ∧
    recvOpt C (recvNewD C bits) i msg = none := by
  refine ⟨by simp [recvNew, hm], rfl, ?_, ?_⟩
  · simp [recvNewD, all_openings_single]
  · have hb : (recvNewD C bits).bits.get? i = none := List.get?_eq_none.mpr h1
    unfold recvOpt
    rw [hb]
    rfl

/-- Witness for C10: `n = 4`, one retained bit, `i = 2`. -/
theorem recv_fails_beyond_retained_bits_witness :
    ([Choice.One].length ≤ CW.n ∧ [Choice.One].length ≤ 2 ∧ 2 < CW.n) ∧
    (recvNew CW [Choice.One] = some (recvNewD CW [Choice.One]) ∧
     (recvNewD CW [Choice.One]).bits = [Choice.One] ∧
     (recvNewD CW [Choice.One]).qs.length = CW.n ∧
     recvOpt CW (recvNewD CW [Choice.One]) 2 msgW = none) :=
  ⟨⟨by decide, by decide, by decide⟩,
   recv_fails_beyond_retained_bits CW [Choice.One] 2 msgW
     (by decide) (by decide) (by decide)⟩

/-- C4.  Plain-backend commitment creation is deterministic: `new` takes no
RNG argument, its only nondeterminism-looking step draws from the fixed-seed
`ark_std::test_rng()` (the fixed scalar `padElem`), so two receiver
constructions from the same key and bits yield equal commitments, and the
commitment is the pure function `plain_kzg_com` of the SRS and the padded
bits with no blinding term. -/
theorem plain_commitment_deterministic {F : Type} [Field F] [DecidableEq F]
    (C : Ctx F) (bits : List Choice) (R1 R2 : RecvState F)
    (h1 : R1 = recvNewD C bits) (h2 : R2 = recvNewD C bits) :
    R1.com = R2.com ∧ R1.com = plain_kzg_com C (paddedElems C bits) := by
  subst h1
  subst h2
  exact ⟨rfl, rfl⟩

/-- Witness for C4 at a concrete construction. -/
theorem plain_commitment_deterministic_witness :
    (recvNewD CW [Choice.One]).com = (recvNewD CW [Choice.One]).com ∧
    (recvNewD CW [Choice.One]).com = plain_kzg_com CW (paddedElems CW [Choice.One]) :=
  plain_commitment_deterministic CW [Choice.One] _ _ rfl rfl

/-- C5 counterexample.  The claim asserts every entry of the committed
vector at position `≥ m` is the field element zero in both backends; the
plain backend pads with `ScalarField::rand(&mut ark_std::test_rng())`
(source comment: "pad with random elements"), a fixed scalar nothing forces
to be zero.  At the concrete deployment `CW2` (whose test-RNG scalar is the
model parameter `padElem = 1`), with one input bit and `n = 2`, the padded
entry at position `1 ≥ m = 1` is `1`, not `0`. -/
theorem zero_padding_counterexample :
    ¬ ((paddedElems CW2 [Choice.One]).getD 1 0 = 0) := by decide

/-- C5 amended.  For every bit vector of length `m` and every position
`m ≤ i < n`: the circuit-certified backend's padded vector holds the field
element zero there, while the plain backend's padded vector holds the fixed
test-RNG scalar `padElem` there (zero only if that scalar happens to be
zero). -/
theorem padding_entries_amended {F : Type} [Field F] [DecidableEq F]
    (C : Ctx F) (bits : List Choice) (i : ℕ)
    (h1 : bits.length ≤ i) (h2 : i < C.n) :
    (halo2PaddedElems C.n bits : List F).getD i 0 = 0 ∧
    (paddedElems C bits).getD i 0 = C.padElem := by
  have hlen : (toElems (F := F) bits).length = bits.length := length_toElems bits
  have h1' : (toElems (F := F) bits).length ≤ i := by rw [hlen]; exact h1
  constructor
  · unfold halo2PaddedElems
    rw [if_pos (by rw [hlen]; omega)]
    rw [List.getD_append_right _ _ _ _ h1']
    exact getD_replicate_lt _ _ _ _ (by rw [hlen]; omega)
  · unfold paddedElems
    rw [List.getD_append_right _ _ _ _ h1']
    exact getD_replicate_lt _ _ _ _ (by rw [hlen]; omega)

/-- Witness for the amended C5 at a concrete input. -/
theorem padding_entries_amended_witness :
    ([Choice.One].length ≤ 1 ∧ 1 < CW2.n) ∧
    ((halo2PaddedElems CW2.n [Choice.One] : List F5).getD 1 0 = 0 ∧
     (paddedElems CW2 [Choice.One]).getD 1 0 = CW2.padElem) :=
  ⟨⟨by decide, by decide⟩,
   padding_entries_amended CW2 [Choice.One] 1 (by decide) (by decide)⟩

/-- C3 counterexample.  The claim asserts the plain and the
circuit-certified commitments are identical for every bit vector over an
equivalent SRS.  For a bit vector shorter than the domain they differ: the
plain backend pads the committed vector with the test-RNG scalar, the
certified backend with zero.  Concretely at `CW2` (`n = 2`, `padElem = 1`)
with the single bit `One`, the plain commitment is the interpolation of
`[1, 1]` at `s` and the certified one the interpolation of `[1, 0]`. -/
theorem cross_backend_commitment_counterexample :
    (recvNewD CW2 [Choice.One]).com ≠ halo2Commitment CW2 [Choice.One] := by decide

/-- C3 amended.  For every full-length bit vector (`m = n`), the plain
backend's commitment equals the circuit-certified backend's advice-column
commitment over an equivalent SRS (no padding is applied on either side). -/
theorem cross_backend_commitment_full_length {F : Type} [Field F] [DecidableEq F]
    (C : Ctx F) (bits : List Choice) (h : bits.length = C.n) :
    (recvNewD C bits).com = halo2Commitment C bits := by
  have hlen : (toElems (F := F) bits).length = bits.length := length_toElems bits
  show plain_kzg_com C (paddedElems C bits) = halo2Commitment C bits
  unfold plain_kzg_com halo2Commitment paddedElems halo2PaddedElems
  rw [if_neg (by rw [hlen, h]; omega)]
  rw [h, Nat.sub_self, List.replicate_zero, List.append_nil]

/-- Witness for the amended C3 at a concrete full-length input. -/
theorem cross_backend_commitment_full_length_witness :
    ([Choice.One, Choice.Zero, Choice.One, Choice.Zero].length = CW.n) ∧
    (recvNewD CW [Choice.One, Choice.Zero, Choice.One, Choice.Zero]).com =
      halo2Commitment CW [Choice.One, Choice.Zero, Choice.One, Choice.Zero] :=
  ⟨by decide,
   cross_backend_commitment_full_length CW
     [Choice.One, Choice.Zero, Choice.One, Choice.Zero] (by decide)⟩

/-- C7 counterexample.  The claim asserts `send(i, m0, m1)` with `i ≥ n`
fails with a usage error rather than returning an OT message computed at a
wrapped-around domain point.  `send` has no failure path: it computes
`x = domain.element(i) = ω^i = ω^(i mod n)`.  Concretely at `CW` (`n = 4`,
`ω = 2` of order `4` in `F5`), `send` at index `4` returns exactly the
message it returns at the wrapped-around index `0` (same randomizers). -/
theorem send_beyond_domain_counterexample :
    send CW (3 : F5) 4 1 1 mW0 mW1 = send CW 3 0 1 1 mW0 mW1 := by decide

/-- C7 amended.  For `i ≥ n`, `recv(i, msg)` fails (out-of-bounds panic on
the retained bit vector, since its length is `≤ n ≤ i`), but `send(i, …)`
does not fail: it returns the OT message computed at the wrapped-around
domain point `ω^(i mod n)`. -/
theorem index_out_of_range_amended {F : Type} [Field F] [DecidableEq F]
    (C : Ctx F) (bits : List Choice) (i : ℕ) (msg : OTMsg F)
    (com r0 r1 : F) (m0 m1 : Bytes16)
    (hm : bits.length ≤ C.n) (hi : C.n ≤ i)
    (hn : 0 < C.n) (homega : C.omega ^ C.n = 1) :
    recvOpt C (recvNewD C bits) i msg = none ∧
    send C com i r0 r1 m0 m1 = send C com (i % C.n) r0 r1 m0 m1 := by
  constructor
  · have hb : (recvNewD C bits).bits.get? i = none :=
      List.get?_eq_none.mpr (le_trans hm hi)
    unfold recvOpt
    rw [hb]
    rfl
  · have hx : C.omega ^ i = C.omega ^ (i % C.n) := by
      conv_lhs => rw [← Nat.div_add_mod i C.n]
      rw [pow_add, pow_mul, homega, one_pow, one_mul]
    unfold send
    rw [hx]

/-- C1.  OT correctness of the plain backend: for a domain of size `n` with
generator of (multiplicative) order `n` and a setup secret off the domain,
every bit vector of length `m ≤ n`, every index `i < m`, all 16-byte
messages and all sender randomizers: a receiver built from the bits and a
sender built from that receiver's commitment over the same key satisfy
`recv(i, send(i, m0, m1)) = m1` when `bits[i] = 1` and `= m0` when
`bits[i] = 0`, by the KZG opening pairing identity. -/
theorem plain_ot_correctness {F : Type} [Field F] [DecidableEq F]
    (C : Ctx F) (bits : List Choice) (i : ℕ) (r0 r1 : F) (m0 m1 : Bytes16)
    (hm : bits.length ≤ C.n) (hi : i < bits.length)
    (hinj : ∀ a, a < C.n → ∀ b, b < C.n → C.omega ^ a = C.omega ^ b → a = b)
    (hs : ∀ t, t < C.n → C.s ≠ C.omega ^ t) :
    recvOpt C (recvNewD C bits) i
        (send C (recvNewD C bits).com i r0 r1 m0 m1) =
      some (if bits.getD i Choice.Zero = Choice.One then m1 else m0) := by
  have hin : i < C.n := lt_of_lt_of_le hi hm
  have hsx : C.s - C.omega ^ i ≠ 0 := sub_ne_zero.mpr (hs i hin)
  set fS := interpEval C.omega C.n (paddedElems C bits) C.s with hfS
  have hfX : interpEval C.omega C.n (paddedElems C bits) (C.omega ^ i) =
      (if bits.getD i Choice.Zero = Choice.One then (1 : F) else 0) := by
    rw [interpEval_node C.omega C.n _ i hinj hin]
    unfold paddedElems
    rw [List.getD_append _ _ _ _ (by rw [length_toElems]; exact hi)]
    exact toElems_getD bits i hi
  have hbit : (recvNewD C bits).bits.get? i = some (bits.getD i Choice.Zero) :=
    get?_eq_some_getD bits i Choice.Zero hi
  have hq : (recvNewD C bits).qs.get? i =
      some ((fS - interpEval C.omega C.n (paddedElems C bits) (C.omega ^ i)) /
        (C.s - C.omega ^ i)) := by
    show (all_openings_single C (paddedElems C bits)).get? i = _
    unfold all_openings_single
    exact get?_range_map _ _ _ hin
  have hcom : (recvNewD C bits).com = fS := rfl
  unfold recvOpt
  rw [hbit, hq, Option.some_bind, Option.map_some']
  rw [hfX] at *
  have hifN : ∀ {α : Type} (a b : α), (if Choice.Zero = Choice.One then a else b) = b :=
    fun _ _ => rfl
  have hifP : ∀ {α : Type} (a b : α), (if Choice.One = Choice.One then a else b) = a :=
    fun _ _ => rfl
  rcases hb : bits.getD i Choice.Zero with _ | _
  · -- bits[i] = Zero: pad = q_i · (s - ω^i) · r0 = fS · r0 = msk0
    simp only [send, hcom, hifN, one_mul, mul_one, sub_zero] at hq ⊢
    rw [← mul_assoc, div_mul_cancel₀ _ hsx]
    exact congrArg some (decrypt_encrypt_eq C.ks (fS * r0) m0)
  · -- bits[i] = One: pad = q_i · (s - ω^i) · r1 = (fS - 1) · r1 = msk1
    simp only [send, hcom, hifP, eq_self_iff_true, if_true, one_mul, mul_one] at hq ⊢
    rw [← mul_assoc, div_mul_cancel₀ _ hsx]
    exact congrArg some (decrypt_encrypt_eq C.ks ((fS - 1) * r1) m1)

/-- Witness for C1: `F5`, `n = 4`, `ω = 2` (order 4), `s = 0`, one bit
`One`, index `0`; the receiver recovers `m1`. -/
theorem plain_ot_correctness_witness :
    ([Choice.One].length ≤ CW.n ∧ (0 : ℕ) < [Choice.One].length ∧
     (∀ a, a < CW.n → ∀ b, b < CW.n → CW.omega ^ a = CW.omega ^ b → a = b) ∧
     (∀ t, t < CW.n → CW.s ≠ CW.omega ^ t)) ∧
    recvOpt CW (recvNewD CW [Choice.One]) 0
        (send CW (recvNewD CW [Choice.One]).com 0 1 1 mW0 mW1) =
      some (if [Choice.One].getD 0 Choice.Zero = Choice.One then mW1 else mW0) :=
  ⟨⟨by decide, by decide, by decide, by decide⟩,
   plain_ot_correctness CW [Choice.One] 0 1 1 mW0 mW1
     (by decide) (by decide) (by decide) (by decide)⟩

/-- C2 counterexample.  The claim quantifies over every domain size
`n = 2^k`, including `k = 0` (`n = 1`).  There the FK batch opening
succeeds and returns the identity opening, while the naive `kzg_open`
panics: `poly_divide` on the length-1 coefficient vector evaluates
`q[n - 2]` with `n = 1`, an index underflow.  Concretely over `F5` with
`s = 3`, extended root `ζ₂ = 4` (order `2 = 2n`), base root `ω = 1`
(order `1 = n`), `lagrange_to_coeff = id` (exact for constant
polynomials), and evaluation vector `[2]`: the FK side yields the zero
exponent (identity point) and the naive side fails. -/
theorem fk_kzg_counterexample :
    (fkOpenings dftSpec id (4 : F5) 1 3 0 [2]).bind (fun L => L.get? 0) = some 0 ∧
    kzg_open id (3 : F5) ((1 : F5) ^ 0) 0 [2] = none := by
  constructor
  · decide
  · decide

/-- C2 amended.  For every domain size `n = 2^k` with `k ≥ 1`, every
evaluation vector of length `n`, and every index `i < n`: the `i`-th opening
of `all_openings_fk` over the `y` table precomputed from the SRS powers
equals the opening of the naive method `kzg_open` (Horner evaluation,
synthetic division by `(x - ω^i)`, commitment of the quotient with the SRS),
and the naive method succeeds.  Ambient hypotheses: `ζ₂` is a primitive
`2n`-th root of unity and `2n` is invertible in the scalar field (both hold
for the BN254 scalar field the code instantiates), and `lagrange_to_coeff`
is any length-preserving coefficient conversion shared by the two paths. -/
theorem fk_matches_kzg {F : Type} [Field F] [DecidableEq F]
    (l2c : List F → List F) (z omega s : F) (k : ℕ) (evals : List F) (i : ℕ)
    (hk : 1 ≤ k) (hev : evals.length = 2 ^ k) (hi : i < 2 ^ k)
    (hlen : (l2c evals).length = 2 ^ k)
    (hroot : z ^ (2 * 2 ^ k) = 1)
    (hprim : ∀ t, 0 < t → t < 2 * 2 ^ k → z ^ t ≠ 1)
    (hchar : ((2 * 2 ^ k : ℕ) : F) ≠ 0) :
    (fkOpenings dftSpec l2c z omega s k evals).bind (fun L => L.get? i)
        = kzg_open l2c s (omega ^ i) k evals
      ∧ (kzg_open l2c s (omega ^ i) k evals).isSome := by
  rw [fk_openings_eval l2c z omega s k evals i hk hev hi hlen hroot hprim hchar,
    kzg_open_eval l2c s (omega ^ i) k evals hk hev hlen]
  exact ⟨congrArg some (sum_swap_quotient s (omega ^ i) (2 ^ k - 1) (l2c evals)), rfl⟩

/-- Witness for the amended C2: `F5`, `k = 1` (`n = 2`), extended root
`ζ₂ = 2` (order `4`), `s = 3`, `lagrange_to_coeff = id`, evals `[1, 0]`,
index `1`. -/
theorem fk_matches_kzg_witness :
    ((1 : ℕ) ≤ 1 ∧ ([(1 : F5), 0]).length = 2 ^ 1 ∧ 1 < 2 ^ 1 ∧
     (id [(1 : F5), 0]).length = 2 ^ 1 ∧
     (2 : F5) ^ (2 * 2 ^ 1) = 1 ∧
     (∀ t, 0 < t → t < 2 * 2 ^ 1 → (2 : F5) ^ t ≠ 1) ∧
     ((2 * 2 ^ 1 : ℕ) : F5) ≠ 0) ∧
    ((fkOpenings dftSpec id (2 : F5) 4 3 1 [1, 0]).bind (fun L => L.get? 1)
        = kzg_open id (3 : F5) ((4 : F5) ^ 1) 1 [1, 0]
      ∧ (kzg_open id (3 : F5) ((4 : F5) ^ 1) 1 [1, 0]).isSome) :=
  ⟨⟨by decide, by decide, by decide, by decide, by decide,
    by
      intro t ht1 ht2
      interval_cases t <;> decide,
    by decide⟩,
   fk_matches_kzg id 2 4 3 1 [1, 0] 1 (by decide) (by decide) (by decide)
     (by decide) (by decide)
     (by
       intro t ht1 ht2
       interval_cases t <;> decide)
     (by decide)⟩

/-- Witness for the amended C7 at a concrete out-of-range index. -/
theorem index_out_of_range_amended_witness :
    ([Choice.One].length ≤ CW.n ∧ CW.n ≤ 5 ∧ 0 < CW.n ∧ CW.omega ^ CW.n = 1) ∧
    (recvOpt CW (recvNewD CW [Choice.One]) 5 msgW = none ∧
     send CW (3 : F5) 5 1 1 mW0 mW1 = send CW 3 (5 % CW.n) 1 1 mW0 mW1) :=
  ⟨⟨by decide, by decide, by decide, by decide⟩,
   index_out_of_range_amended CW [Choice.One] 5 msgW 3 1 1 mW0 mW1
     (by decide) (by decide) (by decide) (by decide)⟩

end TrinityModel
